import Mathlib

/-!
Shallow embedding of `pagerank.py`.

Python dictionaries are modelled as association lists kept in insertion
order (`List (Page × α)`); Python `float` arithmetic is modelled exactly
over `ℚ`; fallible operations (KeyError, IndexError, ZeroDivisionError)
return `Option`; the unbounded `while True` loop of `iterate_pagerank`
is given explicit fuel, `none` standing for non-termination within the
fuel; the random choices of `sample_pagerank` are an explicit oracle
`pick : ℕ → ℕ` selecting an index into the candidate list, so that
universally quantified theorems cover every outcome of the random draws.
-/

namespace PageRank

abbrev Page := String

/-- The corpus: a Python dict mapping each page to its set of outgoing
links, the set modelled as a list. -/
abbrev Graph := List (Page × List Page)

/-- Python `d[k]`: value at the first (unique, for a real dict) occurrence
of `k`, `none` standing for `KeyError`. -/
def dictGet {α : Type} (d : List (Page × α)) (k : Page) : Option α :=
  match d with
  | [] => none
  | (k0, v) :: rest => if k0 = k then some v else dictGet rest k

/-- Lookup with a default, used where the key is known to be present. -/
def dictGetD {α : Type} (d : List (Page × α)) (k : Page) (v0 : α) : α :=
  match d with
  | [] => v0
  | (k0, v) :: rest => if k0 = k then v else dictGetD rest k v0

/-- Python `d[k] = v`: replace the value at `k` keeping its position, or
append a new entry (insertion-order semantics of CPython dicts). -/
def dictSet {α : Type} (d : List (Page × α)) (k : Page) (v : α) : List (Page × α) :=
  match d with
  | [] => [(k, v)]
  | (k0, v0) :: rest => if k0 = k then (k, v) :: rest else (k0, v0) :: dictSet rest k v

/-- Python `list(d.keys())`. -/
def dictKeys {α : Type} (d : List (Page × α)) : List Page :=
  d.map Prod.fst

/-- Python `abs` on our exact rationals. -/
def ratAbs (q : ℚ) : ℚ :=
  if q < 0 then -q else q

/-- `transition_model(corpus, page, damping_factor)` from `pagerank.py`
lines 51-77. `corpus[page]` raising `KeyError` is `none`. -/
def transition_model (corpus : Graph) (page : Page) (damping_factor : ℚ) :
    Option (List (Page × ℚ)) :=
  match dictGet corpus page with
  | none => none
  | some links =>
    if links.length = 0 then
      let prob := 1 / ((dictKeys corpus).length : ℚ)
      some (corpus.map (fun kv => (kv.1, prob)))
    else
      let prob1 := damping_factor / (links.length : ℚ)
      let prob2 := (1 - damping_factor) / ((dictKeys corpus).length : ℚ)
      let prob := prob1 + prob2
      some (links.foldl (fun acc x => dictSet acc x prob)
        (corpus.map (fun kv => (kv.1, prob2))))

/-- The visit-count update of `sample_pagerank` lines 98-101:
increment if present, else insert with count 1. -/
def dictIncr (d : List (Page × ℕ)) (k : Page) : List (Page × ℕ) :=
  if k ∈ dictKeys d then dictSet d k (dictGetD d k 0 + 1) else dictSet d k 1

/-- The main loop of `sample_pagerank` lines 95-102: `k` remaining
iterations, `i` the index fed to the oracle, `s` the current sample,
`dict` the visit counts. -/
def sampleLoop (corpus : Graph) (d : ℚ) (pick : ℕ → ℕ) :
    ℕ → ℕ → Page → List (Page × ℕ) → Option (Page × List (Page × ℕ))
  | 0, _, s, dict => some (s, dict)
  | Nat.succ k, i, s, dict =>
    match transition_model corpus s d with
    | none => none
    | some dist =>
      let ks := dictKeys dist
      let nxt := ks.getD (pick i % ks.length) ""
      sampleLoop corpus d pick k (i + 1) nxt (dictIncr dict nxt)

/-- The sequence of pages drawn by the loop of `sample_pagerank`, under
the same oracle (used to state which pages the walk visits). -/
def walk (corpus : Graph) (d : ℚ) (pick : ℕ → ℕ) :
    ℕ → ℕ → Page → List Page
  | 0, _, _ => []
  | Nat.succ k, i, s =>
    match transition_model corpus s d with
    | none => []
    | some dist =>
      let ks := dictKeys dist
      let nxt := ks.getD (pick i % ks.length) ""
      nxt :: walk corpus d pick k (i + 1) nxt

/-- `sample_pagerank(corpus, damping_factor, n)` from `pagerank.py`
lines 80-107. `n` is a Python int, hence `ℤ`; `random.choice` on an
empty corpus raises (`none`); the final division by `n` raises
`ZeroDivisionError` when `n = 0` (`none`). -/
def sample_pagerank (corpus : Graph) (damping_factor : ℚ) (n : ℤ) (pick : ℕ → ℕ) :
    Option (List (Page × ℚ)) :=
  if (dictKeys corpus).length = 0 then none
  else
    let ks := dictKeys corpus
    let start := ks.getD (pick 0 % ks.length) ""
    match sampleLoop corpus damping_factor pick (n - 1).toNat 1 start [(start, 1)] with
    | none => none
    | some sd =>
      if n = 0 then none
      else some (sd.2.map (fun kv => (kv.1, (kv.2 : ℚ) / (n : ℚ))))

/-- All pages visited by `sample_pagerank`'s walk: the random start page
followed by the drawn samples. -/
def visitedPages (corpus : Graph) (d : ℚ) (n : ℤ) (pick : ℕ → ℕ) : List Page :=
  let ks := dictKeys corpus
  let start := ks.getD (pick 0 % ks.length) ""
  start :: walk corpus d pick (n - 1).toNat 1 start

/-- The inbound sum of `iterate_pagerank` lines 129-132: over every page
of the corpus whose link set contains `key`, add its current rank divided
by its outdegree. -/
def inboundSum (corpus : Graph) (dict : List (Page × ℚ)) (key : Page) : ℚ :=
  corpus.foldl
    (fun s pq => if key ∈ pq.2 then s + dictGetD dict pq.1 0 / (pq.2.length : ℚ) else s) 0

/-- The body of `iterate_pagerank`'s per-key loop, lines 128-136: compute
the new rank from the current (partially updated) dict, bump the
convergence counter when the change is below the tolerance, and commit
the new rank in place. -/
def sweepStep (corpus : Graph) (d : ℚ) (st : ℕ × List (Page × ℚ)) (key : Page) :
    ℕ × List (Page × ℚ) :=
  let new := (1 - d) / ((dictKeys corpus).length : ℚ) + d * inboundSum corpus st.2 key
  let count := if ratAbs (dictGetD st.2 key 0 - new) < 1 / 10000 then st.1 + 1 else st.1
  (count, dictSet st.2 key new)

/-- One pass of the `while True` body, lines 127-136: fold the per-key
update over the corpus keys in order, starting from `count = 0`. -/
def sweep (corpus : Graph) (d : ℚ) (dict : List (Page × ℚ)) : ℕ × List (Page × ℚ) :=
  (dictKeys corpus).foldl (sweepStep corpus d) (0, dict)

/-- The `while True` loop, lines 126-138, with explicit fuel: run a sweep,
stop when every page's change was below tolerance, else continue. -/
def iterLoop (corpus : Graph) (d : ℚ) : ℕ → List (Page × ℚ) → Option (List (Page × ℚ))
  | 0, _ => none
  | Nat.succ fuel, dict =>
    let cd := sweep corpus d dict
    if cd.1 = (dictKeys corpus).length then some cd.2 else iterLoop corpus d fuel cd.2

/-- `iterate_pagerank(corpus, damping_factor)` from `pagerank.py`
lines 110-147: initialize every rank to `1/N`, loop to convergence, then
normalize by the total (dividing by a zero total on a non-empty dict is
`ZeroDivisionError`, hence `none`). -/
def iterate_pagerank (corpus : Graph) (damping_factor : ℚ) (fuel : ℕ) :
    Option (List (Page × ℚ)) :=
  let init := corpus.map (fun kv => (kv.1, 1 / ((dictKeys corpus).length : ℚ)))
  match iterLoop corpus damping_factor fuel init with
  | none => none
  | some dict =>
    let total := (dict.map Prod.snd).sum
    if dict ≠ [] ∧ total = 0 then none
    else some (dict.map (fun kv => (kv.1, kv.2 / total)))

/-- The closed-universe invariant of the spec's data model: every link
target is itself a page of the graph. -/
def Closed (corpus : Graph) : Prop :=
  ∀ kv ∈ corpus, ∀ q ∈ kv.2, q ∈ dictKeys corpus

/-- A well-formed corpus, as produced by `crawl`: distinct pages, each
link set without duplicates (it is a Python set), closed universe. -/
def WF (corpus : Graph) : Prop :=
  (dictKeys corpus).Nodup ∧ (∀ kv ∈ corpus, kv.2.Nodup) ∧ Closed corpus

instance (corpus : Graph) : Decidable (Closed corpus) := by
  unfold Closed; infer_instance

instance (corpus : Graph) : Decidable (WF corpus) := by
  unfold WF; infer_instance

/-- Modelled from the spec: the reference per-page update
`new_rank(p) = (1-damping)/|pages| + damping * sum over pages q linking
to p of rank(q)/|outlinks(q)|`, evaluated on a given rank map. -/
def newRankSpec (corpus : Graph) (d : ℚ) (dict : List (Page × ℚ)) (p : Page) : ℚ :=
  (1 - d) / ((dictKeys corpus).length : ℚ) +
    d * ((corpus.filter (fun kv => p ∈ kv.2)).map
      (fun kv => dictGetD dict kv.1 0 / (kv.2.length : ℚ))).sum

/-- Modelled from the spec: one simultaneous sweep, every page's new rank
computed from the same pre-sweep rank map. -/
def sweepSpec (corpus : Graph) (d : ℚ) (dict : List (Page × ℚ)) : List (Page × ℚ) :=
  corpus.map (fun kv => (kv.1, newRankSpec corpus d dict kv.1))

/-- The sequential (in-place) sweep: the reference per-page formula
applied page by page in key order, each page reading the partially
updated map that already carries the new ranks of earlier pages. -/
def sweepSeq (corpus : Graph) (d : ℚ) (dict : List (Page × ℚ)) : List (Page × ℚ) :=
  (dictKeys corpus).foldl (fun m k => dictSet m k (newRankSpec corpus d m k)) dict

/-! ### Dictionary lemmas -/

theorem dictKeys_nil {α : Type} : dictKeys ([] : List (Page × α)) = [] := rfl

theorem dictKeys_cons {α : Type} (k0 : Page) (v0 : α) (tl : List (Page × α)) :
    dictKeys ((k0, v0) :: tl) = k0 :: dictKeys tl := rfl

theorem dictKeys_map_val {α β : Type} (l : List (Page × α)) (f : Page × α → β) :
    dictKeys (l.map (fun kv => (kv.1, f kv))) = dictKeys l := by
  simp [dictKeys, List.map_map, Function.comp_def]

theorem dictKeys_length {α : Type} (d : List (Page × α)) :
    (dictKeys d).length = d.length := by
  simp [dictKeys]

theorem dictSet_ne_nil {α : Type} (d : List (Page × α)) (k : Page) (v : α) :
    dictSet d k v ≠ [] := by
  cases d with
  | nil => simp [dictSet]
  | cons hd tl =>
    obtain ⟨k0, v0⟩ := hd
    by_cases h : k0 = k <;> simp [dictSet, h]

theorem mem_dictSet {α : Type} {d : List (Page × α)} {k : Page} {v : α} :
    ∀ kv ∈ dictSet d k v, kv ∈ d ∨ kv = (k, v) := by
  induction d with
  | nil => simp [dictSet]
  | cons hd tl ih =>
    obtain ⟨k0, v0⟩ := hd
    intro kv hkv
    by_cases h : k0 = k
    · simp only [dictSet, if_pos h, List.mem_cons] at hkv
      rcases hkv with h1 | h1
      · exact Or.inr h1
      · exact Or.inl (List.mem_cons_of_mem _ h1)
    · simp only [dictSet, if_neg h, List.mem_cons] at hkv
      rcases hkv with h1 | h1
      · exact Or.inl (h1 ▸ List.mem_cons_self _ _)
      · rcases ih kv h1 with h2 | h2
        · exact Or.inl (List.mem_cons_of_mem _ h2)
        · exact Or.inr h2

theorem dictKeys_dictSet_of_mem {α : Type} {d : List (Page × α)} {k : Page} (v : α)
    (h : k ∈ dictKeys d) : dictKeys (dictSet d k v) = dictKeys d := by
  induction d with
  | nil => simp [dictKeys_nil] at h
  | cons hd tl ih =>
    obtain ⟨k0, v0⟩ := hd
    by_cases hk : k0 = k
    · subst hk
      simp [dictSet, dictKeys_cons]
    · rw [dictKeys_cons] at h
      rcases List.mem_cons.mp h with h1 | h1
      · exact absurd h1.symm hk
      · simp only [dictSet, if_neg hk, dictKeys_cons, ih h1]

theorem mem_dictKeys_dictSet {α : Type} {d : List (Page × α)} {k p : Page} {v : α} :
    p ∈ dictKeys (dictSet d k v) ↔ p ∈ dictKeys d ∨ p = k := by
  induction d with
  | nil => simp [dictSet, dictKeys_nil, dictKeys_cons]
  | cons hd tl ih =>
    obtain ⟨k0, v0⟩ := hd
    by_cases hk : k0 = k
    · subst hk
      rw [show dictSet ((k0, v0) :: tl) k0 v = (k0, v) :: tl from by simp [dictSet]]
      simp only [dictKeys_cons, List.mem_cons]
      tauto
    · simp only [dictSet, if_neg hk, dictKeys_cons, List.mem_cons, ih]
      tauto

theorem dictGetD_dictSet {α : Type} (d : List (Page × α)) (k k' : Page) (v : α) (v0 : α) :
    dictGetD (dictSet d k v) k' v0 = if k = k' then v else dictGetD d k' v0 := by
  induction d with
  | nil =>
    by_cases h : k = k' <;> simp [dictSet, dictGetD, h]
  | cons hd tl ih =>
    obtain ⟨k0, w⟩ := hd
    by_cases h0 : k0 = k
    · subst h0
      by_cases h1 : k0 = k' <;> simp [dictSet, dictGetD, h1]
    · by_cases h1 : k0 = k'
      · subst h1
        have h2 : ¬ k = k0 := fun hh => h0 hh.symm
        simp [dictSet, dictGetD, h0, h2]
      · simp [dictSet, dictGetD, h0, h1, ih]

theorem dictGetD_nonneg {d : List (Page × ℚ)} (h : ∀ kv ∈ d, 0 ≤ kv.2) (k : Page) :
    0 ≤ dictGetD d k 0 := by
  induction d with
  | nil => simp [dictGetD]
  | cons hd tl ih =>
    obtain ⟨k0, v⟩ := hd
    by_cases hk : k0 = k
    · simpa [dictGetD, hk] using h (k0, v) (List.mem_cons_self _ _)
    · simp only [dictGetD, if_neg hk]
      exact ih (fun kv hkv => h kv (List.mem_cons_of_mem _ hkv))

theorem dictGet_mem {α : Type} {d : List (Page × α)} {k : Page} {v : α}
    (h : dictGet d k = some v) : (k, v) ∈ d := by
  induction d with
  | nil => simp [dictGet] at h
  | cons hd tl ih =>
    obtain ⟨k0, w⟩ := hd
    by_cases hk : k0 = k
    · simp only [dictGet, if_pos hk] at h
      subst hk
      injection h with h
      subst h
      exact List.mem_cons_self _ _
    · simp only [dictGet, if_neg hk] at h
      exact List.mem_cons_of_mem _ (ih h)

theorem dictGet_isSome_of_mem_keys {α : Type} {d : List (Page × α)} {k : Page}
    (h : k ∈ dictKeys d) : ∃ v, dictGet d k = some v := by
  induction d with
  | nil => simp [dictKeys] at h
  | cons hd tl ih =>
    obtain ⟨k0, w⟩ := hd
    by_cases hk : k0 = k
    · exact ⟨w, by simp [dictGet, hk]⟩
    · simp only [dictKeys, List.map_cons, List.mem_cons] at h
      rcases h with h | h
      · exact absurd h.symm hk
      · obtain ⟨v, hv⟩ := ih h
        exact ⟨v, by simp [dictGet, hk, hv]⟩

theorem mem_dictKeys_dictIncr {d : List (Page × ℕ)} {k p : Page} :
    p ∈ dictKeys (dictIncr d k) ↔ p ∈ dictKeys d ∨ p = k := by
  unfold dictIncr
  split <;> exact mem_dictKeys_dictSet

theorem dictIncr_pos {d : List (Page × ℕ)} (h : ∀ kv ∈ d, 1 ≤ kv.2) (k : Page) :
    ∀ kv ∈ dictIncr d k, 1 ≤ kv.2 := by
  intro kv hkv
  unfold dictIncr at hkv
  split at hkv <;> rcases mem_dictSet kv hkv with h1 | h1
  · exact h kv h1
  · subst h1; exact Nat.le_add_left 1 _
  · exact h kv h1
  · subst h1; exact le_refl 1

theorem dictSet_sum_nat {d : List (Page × ℕ)} {k : Page} (v : ℕ)
    (h : k ∈ dictKeys d) :
    ((dictSet d k v).map Prod.snd).sum + dictGetD d k 0 = (d.map Prod.snd).sum + v := by
  induction d with
  | nil => simp [dictKeys] at h
  | cons hd tl ih =>
    obtain ⟨k0, w⟩ := hd
    by_cases hk : k0 = k
    · subst hk
      rw [show dictSet ((k0, w) :: tl) k0 v = (k0, v) :: tl from by simp [dictSet],
        show dictGetD ((k0, w) :: tl) k0 0 = w from by simp [dictGetD]]
      simp only [List.map_cons, List.sum_cons]
      omega
    · rw [dictKeys_cons] at h
      rcases List.mem_cons.mp h with h1 | h1
      · exact absurd h1.symm hk
      · rw [show dictSet ((k0, w) :: tl) k v = (k0, w) :: dictSet tl k v from by
            simp [dictSet, hk],
          show dictGetD ((k0, w) :: tl) k 0 = dictGetD tl k 0 from by simp [dictGetD, hk]]
        simp only [List.map_cons, List.sum_cons]
        have := ih h1
        omega

theorem dictSet_sum_not_mem {d : List (Page × ℕ)} {k : Page} (v : ℕ)
    (h : k ∉ dictKeys d) :
    ((dictSet d k v).map Prod.snd).sum = (d.map Prod.snd).sum + v := by
  induction d with
  | nil => simp [dictSet]
  | cons hd tl ih =>
    obtain ⟨k0, w⟩ := hd
    rw [dictKeys_cons] at h
    have h1 : ¬ k0 = k := fun hh => h (by subst hh; exact List.mem_cons_self _ _)
    have h2 : k ∉ dictKeys tl := fun hh => h (List.mem_cons_of_mem _ hh)
    rw [show dictSet ((k0, w) :: tl) k v = (k0, w) :: dictSet tl k v from by
        simp [dictSet, h1]]
    simp only [List.map_cons, List.sum_cons, ih h2]
    omega

theorem dictIncr_sum (d : List (Page × ℕ)) (k : Page) :
    ((dictIncr d k).map Prod.snd).sum = (d.map Prod.snd).sum + 1 := by
  unfold dictIncr
  by_cases h : k ∈ dictKeys d
  · rw [if_pos h]
    have h1 := dictSet_sum_nat (d := d) (k := k) (dictGetD d k 0 + 1) h
    omega
  · rw [if_neg h]
    exact dictSet_sum_not_mem 1 h

/-! ### Sum and indexing helpers -/

theorem sum_map_snd_div (l : List (Page × ℚ)) (c : ℚ) :
    ((l.map (fun kv => (kv.1, kv.2 / c))).map Prod.snd).sum = ((l.map Prod.snd).sum) / c := by
  induction l with
  | nil => simp
  | cons hd tl ih =>
    simp only [List.map_cons, List.sum_cons, ih]
    rw [add_div]

theorem sum_map_snd_const {α : Type} (l : List (Page × α)) (c : ℚ) :
    ((l.map (fun kv => (kv.1, c))).map Prod.snd).sum = l.length * c := by
  induction l with
  | nil => simp
  | cons hd tl ih =>
    simp only [List.map_cons, List.sum_cons, ih, List.length_cons]
    push_cast
    ring

theorem sum_pos_of_all_pos {d : List (Page × ℚ)} (hne : d ≠ [])
    (h : ∀ kv ∈ d, 0 < kv.2) : 0 < (d.map Prod.snd).sum := by
  cases d with
  | nil => exact absurd rfl hne
  | cons hd tl =>
    simp only [List.map_cons, List.sum_cons]
    have h1 : 0 < hd.2 := h hd (List.mem_cons_self _ _)
    have h2 : 0 ≤ (tl.map Prod.snd).sum := by
      apply List.sum_nonneg
      intro x hx
      obtain ⟨kv, hkv, rfl⟩ := List.mem_map.mp hx
      exact le_of_lt (h kv (List.mem_cons_of_mem _ hkv))
    linarith

theorem getD_mod_mem {α : Type} (l : List α) (i : ℕ) (d : α) (h : l ≠ []) :
    l.getD (i % l.length) d ∈ l := by
  have hl : 0 < l.length := List.length_pos.mpr h
  have hi : i % l.length < l.length := Nat.mod_lt _ hl
  rw [List.getD_eq_getElem l d hi]
  exact List.getElem_mem hi

/-! ### Transition-model lemmas -/

theorem foldl_dictSet_keys {xs : List Page} {d0 : List (Page × ℚ)} {v : ℚ}
    (h : ∀ x ∈ xs, x ∈ dictKeys d0) :
    dictKeys (xs.foldl (fun acc x => dictSet acc x v) d0) = dictKeys d0 := by
  induction xs generalizing d0 with
  | nil => rfl
  | cons x xs ih =>
    simp only [List.foldl_cons]
    have hx : x ∈ dictKeys d0 := h x (List.mem_cons_self _ _)
    have hkeys : dictKeys (dictSet d0 x v) = dictKeys d0 := dictKeys_dictSet_of_mem v hx
    rw [ih (fun y hy => hkeys ▸ h y (List.mem_cons_of_mem _ hy)), hkeys]

theorem transition_model_some (corpus : Graph) (page : Page) (d : ℚ) (links : List Page)
    (hl : dictGet corpus page = some links) :
    transition_model corpus page d =
      if links.length = 0 then
        some (corpus.map (fun kv => (kv.1, 1 / ((dictKeys corpus).length : ℚ))))
      else
        some (links.foldl
          (fun acc x => dictSet acc x
            (d / (links.length : ℚ) + (1 - d) / ((dictKeys corpus).length : ℚ)))
          (corpus.map (fun kv => (kv.1, (1 - d) / ((dictKeys corpus).length : ℚ))))) := by
  unfold transition_model
  rw [hl]

theorem transition_model_none {corpus : Graph} {page : Page} (d : ℚ)
    (hl : dictGet corpus page = none) :
    transition_model corpus page d = none := by
  unfold transition_model
  rw [hl]

theorem transition_model_isSome {corpus : Graph} {page : Page} (d : ℚ)
    (h : page ∈ dictKeys corpus) :
    ∃ dist, transition_model corpus page d = some dist := by
  obtain ⟨links, hl⟩ := dictGet_isSome_of_mem_keys h
  rw [transition_model_some corpus page d links hl]
  by_cases hz : links.length = 0
  · exact ⟨_, by rw [if_pos hz]⟩
  · exact ⟨_, by rw [if_neg hz]⟩

theorem transition_model_keys {corpus : Graph} {page : Page} {d : ℚ}
    {dist : List (Page × ℚ)} (hcl : Closed corpus)
    (h : transition_model corpus page d = some dist) :
    dictKeys dist = dictKeys corpus := by
  cases hget : dictGet corpus page with
  | none => rw [transition_model_none d hget] at h; exact absurd h (by simp)
  | some links =>
    rw [transition_model_some corpus page d links hget] at h
    by_cases hz : links.length = 0
    · rw [if_pos hz] at h
      injection h with h
      rw [← h, dictKeys_map_val]
    · rw [if_neg hz] at h
      injection h with h
      rw [← h]
      have hsub : ∀ x ∈ links, x ∈ dictKeys (corpus.map
          (fun kv => (kv.1, (1 - d) / ((dictKeys corpus).length : ℚ)))) := by
        intro x hx
        rw [dictKeys_map_val]
        exact hcl (page, links) (dictGet_mem hget) x hx
      rw [foldl_dictSet_keys hsub, dictKeys_map_val]

theorem transition_model_keys_ne_nil {corpus : Graph} {page : Page} {d : ℚ}
    {dist : List (Page × ℚ)} (hcl : Closed corpus) (hc : corpus ≠ [])
    (h : transition_model corpus page d = some dist) :
    dictKeys dist ≠ [] := by
  rw [transition_model_keys hcl h]
  intro hh
  apply hc
  have := congrArg List.length hh
  rw [dictKeys_length] at this
  exact List.length_eq_zero.mp this

/-! ### Sampling-loop lemmas -/

theorem sampleLoop_spec (corpus : Graph) (d : ℚ) (pick : ℕ → ℕ)
    (hc : corpus ≠ []) (hcl : Closed corpus) :
    ∀ (k i : ℕ) (s : Page) (dict : List (Page × ℕ)),
      s ∈ dictKeys corpus → (∀ kv ∈ dict, 1 ≤ kv.2) →
      ∃ sd, sampleLoop corpus d pick k i s dict = some sd ∧
        ((sd.2.map Prod.snd).sum = (dict.map Prod.snd).sum + k) ∧
        (∀ kv ∈ sd.2, 1 ≤ kv.2) ∧
        (∀ p, p ∈ dictKeys sd.2 ↔ p ∈ dictKeys dict ∨ p ∈ walk corpus d pick k i s) ∧
        (∀ p ∈ walk corpus d pick k i s, p ∈ dictKeys corpus) := by
  intro k
  induction k with
  | zero =>
    intro i s dict hs hpos
    exact ⟨(s, dict), rfl, by simp, hpos, by simp [walk], by simp [walk]⟩
  | succ k ih =>
    intro i s dict hs hpos
    obtain ⟨dist, hdist⟩ := transition_model_isSome d hs
    have hkeys : dictKeys dist = dictKeys corpus := transition_model_keys hcl hdist
    have hksne : dictKeys dist ≠ [] := transition_model_keys_ne_nil hcl hc hdist
    have hnxtmem : (dictKeys dist).getD (pick i % (dictKeys dist).length) "" ∈ dictKeys dist :=
      getD_mod_mem _ _ _ hksne
    set nxt := (dictKeys dist).getD (pick i % (dictKeys dist).length) "" with hnxt
    have hnxtc : nxt ∈ dictKeys corpus := hkeys ▸ hnxtmem
    have hstep : sampleLoop corpus d pick (k + 1) i s dict
        = sampleLoop corpus d pick k (i + 1) nxt (dictIncr dict nxt) := by
      conv_lhs => rw [sampleLoop]
      rw [hdist]
    have hwstep : walk corpus d pick (k + 1) i s = nxt :: walk corpus d pick k (i + 1) nxt := by
      conv_lhs => rw [walk]
      rw [hdist]
    obtain ⟨sd, h1, h2, h3, h4, h5⟩ :=
      ih (i + 1) nxt (dictIncr dict nxt) hnxtc (dictIncr_pos hpos nxt)
    refine ⟨sd, by rw [hstep]; exact h1, ?_, h3, ?_, ?_⟩
    · rw [h2, dictIncr_sum]
      omega
    · intro p
      rw [hwstep, h4, mem_dictKeys_dictIncr, List.mem_cons]
      tauto
    · intro p hp
      rw [hwstep] at hp
      rcases List.mem_cons.mp hp with hp | hp
      · exact hp ▸ hnxtc
      · exact h5 p hp

/-! ### Sweep and iteration lemmas -/

theorem inboundSum_foldl (dict : List (Page × ℚ)) (key : Page) :
    ∀ (corpus : Graph) (s : ℚ),
      corpus.foldl
        (fun s pq => if key ∈ pq.2 then s + dictGetD dict pq.1 0 / (pq.2.length : ℚ) else s) s
      = s + ((corpus.filter (fun kv => key ∈ kv.2)).map
          (fun kv => dictGetD dict kv.1 0 / (kv.2.length : ℚ))).sum := by
  intro corpus
  induction corpus with
  | nil => simp
  | cons hd tl ih =>
    intro s
    by_cases h : key ∈ hd.2
    · simp [List.foldl_cons, List.filter_cons, h, ih]
      ring
    · simp [List.foldl_cons, List.filter_cons, h, ih]

theorem inboundSum_eq_filter (corpus : Graph) (dict : List (Page × ℚ)) (key : Page) :
    inboundSum corpus dict key =
      ((corpus.filter (fun kv => key ∈ kv.2)).map
        (fun kv => dictGetD dict kv.1 0 / (kv.2.length : ℚ))).sum := by
  unfold inboundSum
  rw [inboundSum_foldl]
  ring

theorem inboundSum_nonneg {corpus : Graph} {dict : List (Page × ℚ)} {key : Page}
    (h : ∀ kv ∈ dict, 0 ≤ kv.2) : 0 ≤ inboundSum corpus dict key := by
  rw [inboundSum_eq_filter]
  apply List.sum_nonneg
  intro x hx
  obtain ⟨kv, _, rfl⟩ := List.mem_map.mp hx
  apply div_nonneg (dictGetD_nonneg h _)
  exact Nat.cast_nonneg _

theorem sweepStep_pos {corpus : Graph} {d : ℚ} (hc : corpus ≠ []) (hd0 : 0 ≤ d)
    (hd1 : d < 1) {st : ℕ × List (Page × ℚ)} (h : ∀ kv ∈ st.2, 0 < kv.2) (key : Page) :
    ∀ kv ∈ (sweepStep corpus d st key).2, 0 < kv.2 := by
  intro kv hkv
  have hN : (0 : ℚ) < ((dictKeys corpus).length : ℚ) := by
    rw [dictKeys_length]
    exact_mod_cast List.length_pos.mpr hc
  have hnew : 0 < (1 - d) / ((dictKeys corpus).length : ℚ) + d * inboundSum corpus st.2 key := by
    have h1 : 0 < (1 - d) / ((dictKeys corpus).length : ℚ) :=
      div_pos (by linarith) hN
    have h2 : 0 ≤ d * inboundSum corpus st.2 key :=
      mul_nonneg hd0 (inboundSum_nonneg (fun kv hkv => le_of_lt (h kv hkv)))
    linarith
  rcases mem_dictSet kv hkv with h1 | h1
  · exact h kv h1
  · rw [h1]
    exact hnew

theorem sweep_aux_pos {corpus : Graph} {d : ℚ} (hc : corpus ≠ []) (hd0 : 0 ≤ d)
    (hd1 : d < 1) :
    ∀ (keys : List Page) (st : ℕ × List (Page × ℚ)),
      (∀ kv ∈ st.2, 0 < kv.2) → st.2 ≠ [] →
      (∀ kv ∈ (keys.foldl (sweepStep corpus d) st).2, 0 < kv.2) ∧
        (keys.foldl (sweepStep corpus d) st).2 ≠ [] := by
  intro keys
  induction keys with
  | nil => exact fun st h hne => ⟨h, hne⟩
  | cons k keys ih =>
    intro st h hne
    simp only [List.foldl_cons]
    exact ih (sweepStep corpus d st k) (sweepStep_pos hc hd0 hd1 h k)
      (dictSet_ne_nil _ _ _)

theorem sweep_pos {corpus : Graph} {d : ℚ} {dict : List (Page × ℚ)} (hc : corpus ≠ [])
    (hd0 : 0 ≤ d) (hd1 : d < 1) (h : ∀ kv ∈ dict, 0 < kv.2) (hne : dict ≠ []) :
    (∀ kv ∈ (sweep corpus d dict).2, 0 < kv.2) ∧ (sweep corpus d dict).2 ≠ [] :=
  sweep_aux_pos hc hd0 hd1 (dictKeys corpus) (0, dict) h hne

theorem iterLoop_pos {corpus : Graph} {d : ℚ} (hc : corpus ≠ []) (hd0 : 0 ≤ d)
    (hd1 : d < 1) :
    ∀ (fuel : ℕ) (dict res : List (Page × ℚ)),
      (∀ kv ∈ dict, 0 < kv.2) → dict ≠ [] →
      iterLoop corpus d fuel dict = some res →
      (∀ kv ∈ res, 0 < kv.2) ∧ res ≠ [] := by
  intro fuel
  induction fuel with
  | zero =>
    intro dict res _ _ hres
    exact absurd hres (by simp [iterLoop])
  | succ fuel ih =>
    intro dict res h hne hres
    simp only [iterLoop] at hres
    obtain ⟨hp, hn⟩ := sweep_pos hc hd0 hd1 h hne
    by_cases hcount : (sweep corpus d dict).1 = (dictKeys corpus).length
    · rw [if_pos hcount] at hres
      injection hres with hres
      exact hres ▸ ⟨hp, hn⟩
    · rw [if_neg hcount] at hres
      exact ih _ res hp hn hres

/-! ### Lemmas for the transition-model value characterization -/

theorem dictSet_sum_q {d : List (Page × ℚ)} {k : Page} (v : ℚ) (h : k ∈ dictKeys d) :
    ((dictSet d k v).map Prod.snd).sum = (d.map Prod.snd).sum + v - dictGetD d k 0 := by
  induction d with
  | nil => simp [dictKeys_nil] at h
  | cons hd tl ih =>
    obtain ⟨k0, w⟩ := hd
    by_cases hk : k0 = k
    · subst hk
      rw [show dictSet ((k0, w) :: tl) k0 v = (k0, v) :: tl from by simp [dictSet],
        show dictGetD ((k0, w) :: tl) k0 0 = w from by simp [dictGetD]]
      simp only [List.map_cons, List.sum_cons]
      ring
    · rw [dictKeys_cons] at h
      rcases List.mem_cons.mp h with h1 | h1
      · exact absurd h1.symm hk
      · rw [show dictSet ((k0, w) :: tl) k v = (k0, w) :: dictSet tl k v from by
            simp [dictSet, hk],
          show dictGetD ((k0, w) :: tl) k 0 = dictGetD tl k 0 from by simp [dictGetD, hk]]
        simp only [List.map_cons, List.sum_cons, ih h1]
        ring

theorem foldl_dictSet_sum_q :
    ∀ (xs : List Page) (d0 : List (Page × ℚ)) (p p2 : ℚ), xs.Nodup →
      (∀ x ∈ xs, x ∈ dictKeys d0 ∧ dictGetD d0 x 0 = p2) →
      ((xs.foldl (fun acc x => dictSet acc x p) d0).map Prod.snd).sum
        = (d0.map Prod.snd).sum + xs.length * (p - p2) := by
  intro xs
  induction xs with
  | nil => intro d0 p p2 _ _; simp
  | cons x xs ih =>
    intro d0 p p2 hnd h
    obtain ⟨hx, hgx⟩ := h x (List.mem_cons_self _ _)
    have hnd1 : xs.Nodup := (List.nodup_cons.mp hnd).2
    have hxnot : x ∉ xs := (List.nodup_cons.mp hnd).1
    have hrest : ∀ y ∈ xs, y ∈ dictKeys (dictSet d0 x p) ∧
        dictGetD (dictSet d0 x p) y 0 = p2 := by
      intro y hy
      obtain ⟨hy1, hy2⟩ := h y (List.mem_cons_of_mem _ hy)
      constructor
      · rw [dictKeys_dictSet_of_mem p hx]; exact hy1
      · rw [dictGetD_dictSet]
        have hne : ¬ x = y := fun hh => hxnot (hh ▸ hy)
        rw [if_neg hne]
        exact hy2
    simp only [List.foldl_cons]
    rw [ih (dictSet d0 x p) p p2 hnd1 hrest, dictSet_sum_q p hx, hgx, List.length_cons]
    push_cast
    ring

theorem foldl_dictSet_getD :
    ∀ (xs : List Page) (d0 : List (Page × ℚ)) (p : ℚ) (k : Page),
      dictGetD (xs.foldl (fun acc x => dictSet acc x p) d0) k 0
        = if k ∈ xs then p else dictGetD d0 k 0 := by
  intro xs
  induction xs with
  | nil => intro d0 p k; simp
  | cons x xs ih =>
    intro d0 p k
    simp only [List.foldl_cons, ih, dictGetD_dictSet, List.mem_cons]
    by_cases h1 : k ∈ xs
    · simp [h1]
    · by_cases h2 : x = k
      · simp [h1, h2]
      · have h3 : ¬ k = x := fun hh => h2 hh.symm
        simp [h1, h2, h3]

theorem map_getD_const {corpus : Graph} {k : Page} (c : ℚ) (h : k ∈ dictKeys corpus) :
    dictGetD (corpus.map (fun kv => (kv.1, c))) k 0 = c := by
  induction corpus with
  | nil => simp [dictKeys_nil] at h
  | cons hd tl ih =>
    obtain ⟨k0, v0⟩ := hd
    by_cases hk : k0 = k
    · simp [dictGetD, hk]
    · rw [dictKeys_cons] at h
      rcases List.mem_cons.mp h with h1 | h1
      · exact absurd h1.symm hk
      · simp only [List.map_cons, dictGetD, if_neg hk]
        exact ih h1

/-! ### The in-place sweep as a sequential application of the reference formula -/

theorem sweep_foldl_eq_seq (corpus : Graph) (d : ℚ) :
    ∀ (keys : List Page) (c : ℕ) (dict : List (Page × ℚ)),
      (keys.foldl (sweepStep corpus d) (c, dict)).2
        = keys.foldl (fun m k => dictSet m k (newRankSpec corpus d m k)) dict := by
  intro keys
  induction keys with
  | nil => intro c dict; rfl
  | cons k keys ih =>
    intro c dict
    simp only [List.foldl_cons]
    have hstep : sweepStep corpus d (c, dict) k
        = ((sweepStep corpus d (c, dict) k).1, dictSet dict k (newRankSpec corpus d dict k)) := by
      unfold sweepStep newRankSpec
      rw [inboundSum_eq_filter]
    rw [hstep, ih]

theorem sum_map_cast_div (l : List (Page × ℕ)) (c : ℚ) :
    ((l.map (fun kv => (kv.1, (kv.2 : ℚ) / c))).map Prod.snd).sum
      = (((l.map Prod.snd).sum : ℕ) : ℚ) / c := by
  induction l with
  | nil => simp
  | cons hd tl ih =>
    simp only [List.map_cons, List.sum_cons, ih]
    push_cast
    rw [add_div]

theorem dictKeys_ne_nil {corpus : Graph} (hc : corpus ≠ []) : dictKeys corpus ≠ [] := by
  intro hh
  apply hc
  have := congrArg List.length hh
  rw [dictKeys_length] at this
  exact List.length_eq_zero.mp this

/-! ### Claim theorems -/

/-- C5: for every non-empty graph and every page whose outgoing-link set is
empty (dangling node), `transition_model` returns the exact uniform
distribution, every page mapped to exactly `1/|pages|`, independent of the
damping factor. -/
theorem transition_model_dangling_uniform (corpus : Graph) (page : Page) (d : ℚ)
    (hc : corpus ≠ []) (hl : dictGet corpus page = some []) :
    transition_model corpus page d
      = some (corpus.map (fun kv => (kv.1, 1 / (corpus.length : ℚ)))) := by
  rw [transition_model_some corpus page d [] hl]
  simp [dictKeys_length]

/-- Witness for C5 at a concrete dangling page. -/
theorem transition_model_dangling_uniform_witness :
    transition_model [("A", []), ("B", ["A"])] "A" (17/20)
      = some (([("A", []), ("B", ["A"])] : Graph).map
          (fun kv => (kv.1, 1 / ((([("A", []), ("B", ["A"])] : Graph)).length : ℚ)))) :=
  transition_model_dangling_uniform _ "A" _ (by simp) rfl

/-- C10: in the iterative sweep, the division `rank(q)/|outlinks(q)|` is
guarded by `key ∈ outlinks(q)`, which forces `|outlinks(q)| ≥ 1`, so no
division by zero occurs for any graph; and a dangling node contributes no
inbound term: the inbound sum is unchanged when all dangling entries are
removed from the corpus. -/
theorem inboundSum_no_div_by_zero (corpus : Graph) (dict : List (Page × ℚ)) (key : Page) :
    (∀ p ls, (p, ls) ∈ corpus → key ∈ ls → 1 ≤ ls.length) ∧
    inboundSum corpus dict key
      = inboundSum (corpus.filter (fun kv => !kv.2.isEmpty)) dict key := by
  constructor
  · intro p ls _ hkey
    exact List.length_pos.mpr (List.ne_nil_of_mem hkey)
  · rw [inboundSum_eq_filter, inboundSum_eq_filter]
    congr 1
    induction corpus with
    | nil => rfl
    | cons hd tl ih =>
      by_cases h : key ∈ hd.2
      · have hne : hd.2.isEmpty = false := by
          rw [List.isEmpty_eq_false_iff_exists_mem]
          exact ⟨key, h⟩
        simp [List.filter_cons, h, hne, ih]
      · simp only [List.filter_cons]
        by_cases h2 : hd.2.isEmpty <;> simp [h, h2, ih]

/-- Witness for C10 at a concrete graph with a dangling node. -/
theorem inboundSum_no_div_by_zero_witness :
    inboundSum [("A", ["B"]), ("B", ["C"]), ("C", [])]
        [("A", (1:ℚ)/3), ("B", 1/3), ("C", 1/3)] "B"
      = inboundSum (([("A", ["B"]), ("B", ["C"]), ("C", [])] : Graph).filter
          (fun kv => !kv.2.isEmpty)) [("A", (1:ℚ)/3), ("B", 1/3), ("C", 1/3)] "B" :=
  (inboundSum_no_div_by_zero _ _ _).2

/-- C4 counterexample: for the dangling page `A` of the one-page graph and
damping `1/2`, `transition_model` maps `A` to `1`, while the claim's
formula (with no link targets) would give every page the base probability
`(1 - 1/2)/1 = 1/2`. -/
theorem transition_model_value_formula_counterexample :
    transition_model [("A", [])] "A" (1/2) = some [("A", 1)] ∧
      ((1 : ℚ) ≠ (1 - 1/2) / ((([("A", [])] : Graph)).length : ℚ)) := by
  constructor
  · norm_num +decide [transition_model, dictGet, dictKeys]
  · norm_num

/-- C4 (amended): for every well-formed graph, page of the graph, and
damping in `[0,1)`, `transition_model` returns a map whose key set is
exactly the graph's page set and whose values sum exactly to 1; when the
page has at least one outlink every page gets `(1-damping)/|pages|` plus,
for direct link targets, `damping/|outlinks(page)|`; when the page is
dangling every page gets `1/|pages|` instead. -/
theorem transition_model_spec (corpus : Graph) (page : Page) (d : ℚ) (links : List Page)
    (hwf : WF corpus) (hget : dictGet corpus page = some links)
    (hd0 : 0 ≤ d) (hd1 : d < 1) :
    ∃ dist, transition_model corpus page d = some dist ∧
      dictKeys dist = dictKeys corpus ∧
      ((dist.map Prod.snd).sum = 1) ∧
      (links ≠ [] → ∀ k ∈ dictKeys corpus,
        dictGetD dist k 0 = (1 - d) / (corpus.length : ℚ)
          + (if k ∈ links then d / (links.length : ℚ) else 0)) ∧
      (links = [] → ∀ kv ∈ dist, kv.2 = 1 / (corpus.length : ℚ)) := by
  have hc : corpus ≠ [] := by
    intro hh
    rw [hh] at hget
    exact absurd hget (by simp [dictGet])
  have hN : (0 : ℚ) < (corpus.length : ℚ) := by
    exact_mod_cast List.length_pos.mpr hc
  rw [transition_model_some corpus page d links hget]
  by_cases hz : links.length = 0
  · rw [if_pos hz]
    have hnil : links = [] := List.length_eq_zero.mp hz
    refine ⟨_, rfl, dictKeys_map_val _ _, ?_, ?_, ?_⟩
    · rw [sum_map_snd_const, dictKeys_length]
      field_simp
    · intro hlinks
      exact absurd hnil hlinks
    · intro _ kv hkv
      obtain ⟨kv0, _, rfl⟩ := List.mem_map.mp hkv
      simp [dictKeys_length]
  · rw [if_neg hz]
    have hnil : links ≠ [] := fun hh => hz (by rw [hh]; rfl)
    have hL : (0 : ℚ) < (links.length : ℚ) := by
      exact_mod_cast Nat.pos_of_ne_zero hz
    have hmem : (page, links) ∈ corpus := dictGet_mem hget
    have hlnd : links.Nodup := hwf.2.1 (page, links) hmem
    have hlsub : ∀ x ∈ links, x ∈ dictKeys corpus :=
      fun x hx => hwf.2.2 (page, links) hmem x hx
    set p2 := (1 - d) / ((dictKeys corpus).length : ℚ) with hp2
    set p := d / (links.length : ℚ) + p2 with hp
    have hbase : ∀ x ∈ links, x ∈ dictKeys (corpus.map (fun kv => (kv.1, p2))) ∧
        dictGetD (corpus.map (fun kv => (kv.1, p2))) x 0 = p2 := by
      intro x hx
      have hxk : x ∈ dictKeys corpus := hlsub x hx
      exact ⟨by rw [dictKeys_map_val]; exact hxk, map_getD_const p2 hxk⟩
    refine ⟨_, rfl, ?_, ?_, ?_, ?_⟩
    · rw [foldl_dictSet_keys (fun x hx => (hbase x hx).1), dictKeys_map_val]
    · rw [foldl_dictSet_sum_q links _ p p2 hlnd hbase, sum_map_snd_const, hp, hp2,
        dictKeys_length]
      field_simp
      ring
    · intro _ k hk
      rw [foldl_dictSet_getD]
      by_cases hkl : k ∈ links
      · rw [if_pos hkl, if_pos hkl, hp, hp2, dictKeys_length]
        ring
      · rw [if_neg hkl, if_neg hkl, map_getD_const p2 hk, hp2, dictKeys_length]
        ring
    · intro hlinks
      exact absurd hlinks hnil

/-- Witness for C4 at a concrete two-page graph. -/
theorem transition_model_spec_witness :
    ∃ dist, transition_model [("A", ["B"]), ("B", ["A"])] "A" (17/20) = some dist ∧
      dictKeys dist = dictKeys ([("A", ["B"]), ("B", ["A"])] : Graph) ∧
      ((dist.map Prod.snd).sum = 1) ∧
      ((["B"] : List Page) ≠ [] → ∀ k ∈ dictKeys ([("A", ["B"]), ("B", ["A"])] : Graph),
        dictGetD dist k 0 = (1 - 17/20) / ((([("A", ["B"]), ("B", ["A"])] : Graph)).length : ℚ)
          + (if k ∈ (["B"] : List Page) then (17/20) / (((["B"] : List Page)).length : ℚ) else 0)) ∧
      ((["B"] : List Page) = [] → ∀ kv ∈ dist,
        kv.2 = 1 / ((([("A", ["B"]), ("B", ["A"])] : Graph)).length : ℚ)) :=
  transition_model_spec _ "A" (17/20) ["B"] (by decide) rfl (by norm_num) (by norm_num)

theorem sample_pagerank_eq (corpus : Graph) (d : ℚ) (n : ℤ) (pick : ℕ → ℕ)
    (hlen : ¬ (dictKeys corpus).length = 0) {sd : Page × List (Page × ℕ)}
    (hloop : sampleLoop corpus d pick (n - 1).toNat 1
      ((dictKeys corpus).getD (pick 0 % (dictKeys corpus).length) "")
      [((dictKeys corpus).getD (pick 0 % (dictKeys corpus).length) "", 1)] = some sd) :
    sample_pagerank corpus d n pick
      = if n = 0 then none
        else some (sd.2.map (fun kv => (kv.1, (kv.2 : ℚ) / (n : ℚ)))) := by
  simp only [sample_pagerank, if_neg hlen, hloop]

/-- C6: for every non-empty closed graph, damping, sample count `n ≥ 1`, and
outcome of the random draws, `sample_pagerank` returns a map whose values
sum exactly to 1 and are all positive (the counts are positive integers
summing to `n`, each divided by `n`). -/
theorem sample_pagerank_sums_to_one (corpus : Graph) (d : ℚ) (n : ℤ) (pick : ℕ → ℕ)
    (hc : corpus ≠ []) (hcl : Closed corpus) (hn : 1 ≤ n) :
    ∃ dist, sample_pagerank corpus d n pick = some dist ∧
      ((dist.map Prod.snd).sum = 1) ∧ (∀ kv ∈ dist, 0 < kv.2) := by
  have hkne : dictKeys corpus ≠ [] := dictKeys_ne_nil hc
  have hlen : ¬ (dictKeys corpus).length = 0 :=
    fun hh => hkne (List.length_eq_zero.mp hh)
  have hstart : (dictKeys corpus).getD (pick 0 % (dictKeys corpus).length) ""
      ∈ dictKeys corpus := getD_mod_mem _ _ _ hkne
  obtain ⟨sd, h1, h2, h3, _, _⟩ := sampleLoop_spec corpus d pick hc hcl (n - 1).toNat 1 _
    [((dictKeys corpus).getD (pick 0 % (dictKeys corpus).length) "", 1)] hstart (by simp)
  have hn0 : ¬ n = 0 := by omega
  refine ⟨sd.2.map (fun kv => (kv.1, (kv.2 : ℚ) / (n : ℚ))), ?_, ?_, ?_⟩
  · rw [sample_pagerank_eq corpus d n pick hlen h1, if_neg hn0]
  · rw [sum_map_cast_div, h2]
    have h4 : (([((dictKeys corpus).getD (pick 0 % (dictKeys corpus).length) "",
        1)].map Prod.snd).sum + (n - 1).toNat : ℕ) = n.toNat := by
      simp only [List.map_cons, List.map_nil, List.sum_cons, List.sum_nil]
      omega
    rw [h4]
    have h5 : ((n.toNat : ℕ) : ℚ) = (n : ℚ) := by
      rw [show ((n.toNat : ℕ) : ℚ) = ((n.toNat : ℤ) : ℚ) from by push_cast; ring,
        Int.toNat_of_nonneg (by omega)]
    rw [h5]
    exact div_self (Int.cast_ne_zero.mpr hn0)
  · intro kv hkv
    obtain ⟨kv0, hkv0, rfl⟩ := List.mem_map.mp hkv
    have hone : 1 ≤ kv0.2 := h3 kv0 hkv0
    apply div_pos
    · exact_mod_cast Nat.lt_of_lt_of_le Nat.zero_lt_one hone
    · exact_mod_cast (by omega : (0 : ℤ) < n)

/-- Witness for C6 at a concrete two-page graph, three samples, the
oracle always drawing index 0. -/
theorem sample_pagerank_sums_to_one_witness :
    ∃ dist, sample_pagerank [("A", ["B"]), ("B", ["A"])] (17/20) 3 (fun _ => 0)
        = some dist ∧
      ((dist.map Prod.snd).sum = 1) ∧ (∀ kv ∈ dist, 0 < kv.2) :=
  sample_pagerank_sums_to_one _ _ _ _ (by simp) (by decide) (by decide)

/-- C8: for every non-empty closed graph, damping, `n ≥ 1`, and outcome of
the random draws, the key set of the map returned by `sample_pagerank` is
exactly the set of pages visited during the walk, and every key is a page
of the graph. -/
theorem sample_pagerank_keys_eq_visited (corpus : Graph) (d : ℚ) (n : ℤ) (pick : ℕ → ℕ)
    (hc : corpus ≠ []) (hcl : Closed corpus) (hn : 1 ≤ n) :
    ∃ dist, sample_pagerank corpus d n pick = some dist ∧
      (∀ p, p ∈ dictKeys dist ↔ p ∈ visitedPages corpus d n pick) ∧
      (∀ p ∈ dictKeys dist, p ∈ dictKeys corpus) := by
  have hkne : dictKeys corpus ≠ [] := dictKeys_ne_nil hc
  have hlen : ¬ (dictKeys corpus).length = 0 :=
    fun hh => hkne (List.length_eq_zero.mp hh)
  have hstart : (dictKeys corpus).getD (pick 0 % (dictKeys corpus).length) ""
      ∈ dictKeys corpus := getD_mod_mem _ _ _ hkne
  obtain ⟨sd, h1, _, _, h4, h5⟩ := sampleLoop_spec corpus d pick hc hcl (n - 1).toNat 1 _
    [((dictKeys corpus).getD (pick 0 % (dictKeys corpus).length) "", 1)] hstart (by simp)
  have hn0 : ¬ n = 0 := by omega
  have hvis : visitedPages corpus d n pick
      = (dictKeys corpus).getD (pick 0 % (dictKeys corpus).length) ""
        :: walk corpus d pick (n - 1).toNat 1
          ((dictKeys corpus).getD (pick 0 % (dictKeys corpus).length) "") := rfl
  refine ⟨sd.2.map (fun kv => (kv.1, (kv.2 : ℚ) / (n : ℚ))), ?_, ?_, ?_⟩
  · rw [sample_pagerank_eq corpus d n pick hlen h1, if_neg hn0]
  · intro p
    rw [dictKeys_map_val, h4 p, hvis, List.mem_cons]
    simp only [dictKeys_cons, dictKeys_nil, List.mem_cons, List.not_mem_nil, or_false]
  · intro p hp
    rw [dictKeys_map_val, h4 p] at hp
    rcases hp with hp | hp
    · simp only [dictKeys_cons, dictKeys_nil, List.mem_cons, List.not_mem_nil,
        or_false] at hp
      exact hp ▸ hstart
    · exact h5 p hp

/-- Witness for C8 at a concrete two-page graph, three samples, the
oracle always drawing index 0. -/
theorem sample_pagerank_keys_eq_visited_witness :
    ∃ dist, sample_pagerank [("A", ["B"]), ("B", ["A"])] (17/20) 3 (fun _ => 0)
        = some dist ∧
      (∀ p, p ∈ dictKeys dist ↔ p ∈ visitedPages [("A", ["B"]), ("B", ["A"])] (17/20) 3
        (fun _ => 0)) ∧
      (∀ p ∈ dictKeys dist, p ∈ dictKeys ([("A", ["B"]), ("B", ["A"])] : Graph)) :=
  sample_pagerank_keys_eq_visited _ _ _ _ (by simp) (by decide) (by decide)

/-- C7: for every non-empty graph and damping in `(0,1)`, whenever the
convergence loop of `iterate_pagerank` terminates, the returned map's
values sum exactly to 1: the final ranks are divided by their total, which
is strictly positive. -/
theorem iterate_pagerank_sums_to_one (corpus : Graph) (d : ℚ) (fuel : ℕ)
    (res : List (Page × ℚ)) (hc : corpus ≠ []) (hd0 : 0 < d) (hd1 : d < 1)
    (hres : iterate_pagerank corpus d fuel = some res) :
    (res.map Prod.snd).sum = 1 := by
  have hN : (0 : ℚ) < ((dictKeys corpus).length : ℚ) := by
    rw [dictKeys_length]
    exact_mod_cast List.length_pos.mpr hc
  simp only [iterate_pagerank] at hres
  cases hloop : iterLoop corpus d fuel
      (corpus.map (fun kv => (kv.1, 1 / ((dictKeys corpus).length : ℚ)))) with
  | none => rw [hloop] at hres; exact absurd hres (by simp)
  | some dict =>
    simp only [hloop] at hres
    have hinitpos : ∀ kv ∈ corpus.map
        (fun kv => (kv.1, 1 / ((dictKeys corpus).length : ℚ))), 0 < kv.2 := by
      intro kv hkv
      obtain ⟨kv0, _, rfl⟩ := List.mem_map.mp hkv
      exact div_pos one_pos hN
    have hinitne : corpus.map
        (fun kv => (kv.1, 1 / ((dictKeys corpus).length : ℚ))) ≠ [] := by
      intro hh
      exact hc (List.map_eq_nil_iff.mp hh)
    obtain ⟨hpos, hne⟩ := iterLoop_pos hc (le_of_lt hd0) hd1 fuel _ dict hinitpos hinitne hloop
    have htot : 0 < (dict.map Prod.snd).sum := sum_pos_of_all_pos hne hpos
    have hcond : ¬ (dict ≠ [] ∧ (dict.map Prod.snd).sum = 0) :=
      fun hand => absurd hand.2 (ne_of_gt htot)
    rw [if_neg hcond] at hres
    injection hres with hres
    rw [← hres, sum_map_snd_div]
    exact div_self (ne_of_gt htot)

/-- Witness for C7: the one-page graph at damping `1/2` converges with
fuel 2 to the normalized map `{1: 1}`, whose values sum to 1. -/
theorem iterate_pagerank_sums_to_one_witness :
    iterate_pagerank [("1", [])] (1/2) 2 = some [("1", 1)] ∧
      (([(("1" : String), (1 : ℚ))].map Prod.snd).sum = 1) := by
  have h : iterate_pagerank [("1", [])] (1/2) 2 = some [("1", 1)] := by
    norm_num +decide [iterate_pagerank, iterLoop, sweep, sweepStep, inboundSum,
      dictKeys, dictSet, dictGetD, ratAbs]
  exact ⟨h, iterate_pagerank_sums_to_one [("1", [])] (1/2) 2 [("1", 1)] (by simp)
    (by norm_num) (by norm_num) h⟩

/-- C2 counterexample: on the empty graph `iterate_pagerank` does not fail:
its convergence check `count == len(corpus)` is vacuously `0 == 0` after the
first sweep and it returns the empty map. -/
theorem iterate_pagerank_empty_counterexample :
    iterate_pagerank [] (17/20) 1 = some [] := by
  norm_num +decide [iterate_pagerank, iterLoop, sweep, dictKeys]

/-- C2 (amended): on the empty graph `sample_pagerank` fails for every
damping, sample count, and random outcome (`random.choice` on an empty
sequence raises), while `iterate_pagerank` terminates after its first sweep
for every damping and positive fuel, returning the degenerate empty map. -/
theorem empty_graph_estimators (d : ℚ) (n : ℤ) (pick : ℕ → ℕ) (fuel : ℕ) :
    sample_pagerank [] d n pick = none ∧ iterate_pagerank [] d (fuel + 1) = some [] := by
  constructor
  · rfl
  · rfl

/-- C3 counterexample: with a negative sample count `sample_pagerank` does
not fail: `range(1, n)` is empty and the single start-page count is divided
by `n`, giving the map `{A: -1}` for `n = -1`. -/
theorem sample_pagerank_negative_n_counterexample :
    sample_pagerank [("A", [])] (17/20) (-1) (fun _ => 0) = some [("A", -1)] := by
  norm_num +decide [sample_pagerank, sampleLoop, dictKeys]

/-- C3 (amended): for a non-empty graph `sample_pagerank` fails only at
`n = 0` (the final division raises `ZeroDivisionError`); for every `n < 0`
it returns, without error, the map sending the random start page to `1/n`. -/
theorem sample_pagerank_nonpositive_n (corpus : Graph) (d : ℚ) (pick : ℕ → ℕ)
    (hc : corpus ≠ []) :
    sample_pagerank corpus d 0 pick = none ∧
    ∀ n : ℤ, n < 0 →
      ∃ start ∈ dictKeys corpus,
        sample_pagerank corpus d n pick = some [(start, 1 / (n : ℚ))] := by
  have hkne : dictKeys corpus ≠ [] := dictKeys_ne_nil hc
  have hlen : ¬ (dictKeys corpus).length = 0 :=
    fun hh => hkne (List.length_eq_zero.mp hh)
  have hstart : (dictKeys corpus).getD (pick 0 % (dictKeys corpus).length) ""
      ∈ dictKeys corpus := getD_mod_mem _ _ _ hkne
  constructor
  · rw [@sample_pagerank_eq corpus d 0 pick hlen
      ((dictKeys corpus).getD (pick 0 % (dictKeys corpus).length) "",
        [((dictKeys corpus).getD (pick 0 % (dictKeys corpus).length) "", 1)]) rfl]
    rw [if_pos rfl]
  · intro n hn
    have htn : (n - 1).toNat = 0 := by omega
    have hloop : sampleLoop corpus d pick (n - 1).toNat 1
        ((dictKeys corpus).getD (pick 0 % (dictKeys corpus).length) "")
        [((dictKeys corpus).getD (pick 0 % (dictKeys corpus).length) "", 1)]
        = some ((dictKeys corpus).getD (pick 0 % (dictKeys corpus).length) "",
            [((dictKeys corpus).getD (pick 0 % (dictKeys corpus).length) "", 1)]) := by
      rw [htn]
      rfl
    refine ⟨_, hstart, ?_⟩
    rw [sample_pagerank_eq corpus d n pick hlen hloop, if_neg (by omega)]
    norm_num

/-- Witness for C3 at the concrete one-page graph, with `n = 0` and
`n = -2`. -/
theorem sample_pagerank_nonpositive_n_witness :
    sample_pagerank [("A", [])] (17/20) 0 (fun _ => 0) = none ∧
      ∃ start ∈ dictKeys ([("A", [])] : Graph),
        sample_pagerank [("A", [])] (17/20) (-2) (fun _ => 0)
          = some [(start, 1 / (((-2 : ℤ) : ℚ)))] :=
  ⟨(sample_pagerank_nonpositive_n [("A", [])] (17/20) (fun _ => 0) (by simp)).1,
    (sample_pagerank_nonpositive_n [("A", [])] (17/20) (fun _ => 0) (by simp)).2 (-2)
      (by norm_num)⟩

/-- C1 counterexample: on the three-page graph `A→B, B→A, C→A` with
damping `17/20` and the uniform initial ranks, one sweep of the code
differs from one simultaneous application of the reference update: the code
updates `A` in place before computing `B`, so `B` reads `A`'s new rank. -/
theorem sweep_not_simultaneous :
    (sweep [("A", ["B"]), ("B", ["A"]), ("C", ["A"])] (17/20)
        [("A", 1/3), ("B", 1/3), ("C", 1/3)]).2
      ≠ sweepSpec [("A", ["B"]), ("B", ["A"]), ("C", ["A"])] (17/20)
        [("A", 1/3), ("B", 1/3), ("C", 1/3)] := by
  norm_num +decide [sweep, sweepStep, sweepSpec, newRankSpec, inboundSum, dictKeys,
    dictSet, dictGetD, ratAbs]

/-- C1 (amended): each iteration of `iterate_pagerank` applies the
reference per-page update `new_rank(p) = (1-damping)/|pages| +
damping * sum over q linking to p of rank(q)/|outlinks(q)|` sequentially,
page by page in key order, each page's formula evaluated on the current,
partially updated rank map (which already carries the new ranks of the
pages processed earlier in the same sweep), not on a frozen pre-sweep
snapshot. -/
theorem sweep_is_sequential_update (corpus : Graph) (d : ℚ) (dict : List (Page × ℚ)) :
    (sweep corpus d dict).2 = sweepSeq corpus d dict :=
  sweep_foldl_eq_seq corpus d (dictKeys corpus) 0 dict

theorem twoCycle_sweepStep_A (d : ℚ) :
    sweepStep [("A", ["B"]), ("B", ["A"])] d (0, [("A", (1:ℚ)/2), ("B", 1/2)]) "A"
      = (1, [("A", (1:ℚ)/2), ("B", 1/2)]) := by
  have hin : inboundSum [("A", ["B"]), ("B", ["A"])] [("A", (1:ℚ)/2), ("B", 1/2)] "A"
      = 1/2 := by
    norm_num +decide [inboundSum, dictGetD]
  have hlen : ((dictKeys ([("A", ["B"]), ("B", ["A"])] : Graph)).length : ℚ) = 2 := by
    norm_num [dictKeys]
  simp only [sweepStep, hin, hlen]
  have hnew : (1 - d) / (2 : ℚ) + d * (1/2) = 1/2 := by ring
  rw [hnew]
  norm_num +decide [dictGetD, dictSet, ratAbs]

theorem twoCycle_sweepStep_B (d : ℚ) :
    sweepStep [("A", ["B"]), ("B", ["A"])] d (1, [("A", (1:ℚ)/2), ("B", 1/2)]) "B"
      = (2, [("A", (1:ℚ)/2), ("B", 1/2)]) := by
  have hin : inboundSum [("A", ["B"]), ("B", ["A"])] [("A", (1:ℚ)/2), ("B", 1/2)] "B"
      = 1/2 := by
    norm_num +decide [inboundSum, dictGetD]
  have hlen : ((dictKeys ([("A", ["B"]), ("B", ["A"])] : Graph)).length : ℚ) = 2 := by
    norm_num [dictKeys]
  simp only [sweepStep, hin, hlen]
  have hnew : (1 - d) / (2 : ℚ) + d * (1/2) = 1/2 := by ring
  rw [hnew]
  norm_num +decide [dictGetD, dictSet, ratAbs]

theorem twoCycle_sweep (d : ℚ) :
    sweep [("A", ["B"]), ("B", ["A"])] d [("A", (1:ℚ)/2), ("B", 1/2)]
      = (2, [("A", (1:ℚ)/2), ("B", 1/2)]) := by
  have hk : dictKeys ([("A", ["B"]), ("B", ["A"])] : Graph) = ["A", "B"] := rfl
  rw [sweep, hk, List.foldl_cons, twoCycle_sweepStep_A, List.foldl_cons,
    twoCycle_sweepStep_B, List.foldl_nil]

theorem twoCycle_iterLoop (d : ℚ) :
    iterLoop [("A", ["B"]), ("B", ["A"])] d 1 [("A", (1:ℚ)/2), ("B", 1/2)]
      = some [("A", (1:ℚ)/2), ("B", 1/2)] := by
  show iterLoop [("A", ["B"]), ("B", ["A"])] d (0 + 1) [("A", (1:ℚ)/2), ("B", 1/2)]
      = some [("A", (1:ℚ)/2), ("B", 1/2)]
  simp only [iterLoop, twoCycle_sweep]
  norm_num [dictKeys]

/-- C9: for the two-page graph in which each page links only to the other
and every damping in `[0,1)`, `iterate_pagerank` terminates (one sweep
suffices: the uniform initial ranks are already a fixed point) and returns
exactly `1/2` for both pages. -/
theorem iterate_pagerank_two_cycle_half (d : ℚ) (hd0 : 0 ≤ d) (hd1 : d < 1) :
    iterate_pagerank [("A", ["B"]), ("B", ["A"])] d 1
      = some [("A", (1:ℚ)/2), ("B", 1/2)] := by
  have hinit : ([("A", ["B"]), ("B", ["A"])] : Graph).map
      (fun kv => (kv.1, 1 / ((dictKeys ([("A", ["B"]), ("B", ["A"])] : Graph)).length : ℚ)))
      = [("A", (1:ℚ)/2), ("B", 1/2)] := by
    norm_num [dictKeys]
  simp only [iterate_pagerank, hinit, twoCycle_iterLoop]
  norm_num

/-- Witness for C9 at the default damping `17/20 = 0.85`. -/
theorem iterate_pagerank_two_cycle_half_witness :
    iterate_pagerank [("A", ["B"]), ("B", ["A"])] (17/20) 1
      = some [("A", (1:ℚ)/2), ("B", 1/2)] :=
  iterate_pagerank_two_cycle_half (17/20) (by norm_num) (by norm_num)

end PageRank
